import Mathlib

/-!
Mint: integer-literal decoders (`src/compiler/parse_int.c`) and type model
(`src/compiler/types.c`, `src/compiler/types.h`, `src/compiler/function_helper.h`)

A C string is modelled by the list of its characters before the terminating
NUL; reading the position just after the last character yields the terminator.
The C type `int` is 32 bits wide and `long long` is 64 bits wide, both in
two's complement.
-/

set_option maxRecDepth 100000

namespace Mint

/-! ## Library functions used by the decoders -/

/-- The `isspace` test of the C locale: space, `\t`, `\n`, `\v`, `\f`, `\r`. -/
def isspace (c : Char) : Bool :=
  c.toNat = 32 || (9 ≤ c.toNat && c.toNat ≤ 13)

/-- Value that `strtoll` ascribes to a character: `0`-`9` are 0..9 and the
letters `a`-`z` (or `A`-`Z`) are 10..35. -/
def digitOf (c : Char) : Option Nat :=
  if 48 ≤ c.toNat ∧ c.toNat ≤ 57 then some (c.toNat - 48)
  else if 97 ≤ c.toNat ∧ c.toNat ≤ 122 then some (c.toNat - 87)
  else if 65 ≤ c.toNat ∧ c.toNat ≤ 90 then some (c.toNat - 55)
  else none

/-- A character is a digit of `base` when its ascribed value is below `base`. -/
def digitIn (base : Nat) (c : Char) : Option Nat :=
  match digitOf c with
  | some d => if d < base then some d else none
  | none => none

/-- Accumulation over the longest run of digits of `base` at the head of the
text; it stops at the first character that is not such a digit. -/
def accumulate (base : Nat) : Nat → List Char → Nat
  | acc, [] => acc
  | acc, c :: cs =>
    match digitIn base c with
    | some d => accumulate base (acc * base + d) cs
    | none => acc

/-- Largest `long long`. -/
def LLONG_MAX : Int := 9223372036854775807

/-- Smallest `long long`. -/
def LLONG_MIN : Int := -9223372036854775808

/-- Removal of the optional sign: the flag tells whether it was `-`. -/
def takeSign : List Char → Bool × List Char
  | '-' :: rest => (true, rest)
  | '+' :: rest => (false, rest)
  | s => (false, s)

/-- Removal of the optional `0x` / `0X` that `strtoll` accepts in base 16 when
a hexadecimal digit follows it. -/
def takeHexPrefix (base : Nat) : List Char → List Char
  | '0' :: x :: h :: rest =>
    if base = 16 ∧ (x = 'x' ∨ x = 'X') ∧ (digitIn 16 h).isSome then h :: rest
    else '0' :: x :: h :: rest
  | s => s

/-- The C library function `strtoll(s, NULL, base)`: leading white space is
skipped, then an optional sign, then (base 16) an optional `0x`, then the
longest run of digits is converted; without digits the result is 0 and a value
outside `long long` is replaced by `LLONG_MAX` or `LLONG_MIN`. -/
def strtoll (s : List Char) (base : Nat) : Int :=
  let sign := takeSign (s.dropWhile isspace)
  let magnitude := accumulate base 0 (takeHexPrefix base sign.2)
  if sign.1 then
    (if (magnitude : Int) > -LLONG_MIN then LLONG_MIN else -(magnitude : Int))
  else
    (if (magnitude : Int) > LLONG_MAX then LLONG_MAX else (magnitude : Int))

/-- Conversion of an integer to `int`: the value is reduced modulo 2^32 into
the range -2^31 .. 2^31 - 1. -/
def toInt32 (x : Int) : Int :=
  (x + 2147483648) % 4294967296 - 2147483648

/-! ## The separator-removal loop -/

/-- State of the loop `while (*p) { if (*p != '_') *write++ = *p; p++; }`:
the duplicated buffer `clean` and the offsets of `p` and `write` in it. -/
structure Cursor where
  /-- Characters of the buffer before its terminator. -/
  buf : List Char
  /-- Offset of the read pointer `p`. -/
  p : Nat
  /-- Offset of the write pointer `write`. -/
  write : Nat

/-- The loop, run for at most `fuel` iterations. Reading at `p = buf.length`
gives the terminator, which ends the loop. -/
def stripLoop : Nat → Cursor → Cursor
  | 0, st => st
  | fuel + 1, st =>
    match st.buf[st.p]? with
    | none => st
    | some c =>
      if c ≠ '_' then
        stripLoop fuel ⟨st.buf.set st.write c, st.p + 1, st.write + 1⟩
      else
        stripLoop fuel ⟨st.buf, st.p + 1, st.write⟩

/-- The string left in `clean` by `strdup`, the loop started with `p` at offset
`skip`, and `*write = 0`: the characters before the offset of `write`. -/
def stripSeparators (text : List Char) (skip : Nat) : List Char :=
  let st := stripLoop text.length ⟨text, skip, 0⟩
  st.buf.take st.write

/-! ## The decoders -/

/-- Embedding of `parse_decimal`. -/
def parse_decimal (text : List Char) : Int :=
  toInt32 (strtoll (stripSeparators text 0) 10)

/-- Offset added to `p` by `if (text[1] == lower || text[1] == upper) p += 2;`. -/
def prefixSkip (text : List Char) (lower upper : Char) : Nat :=
  if text[1]? = some lower ∨ text[1]? = some upper then 2 else 0

/-- Embedding of `parse_octal`. The test reads `text[1]`, which lies outside
the string when `text` is empty: no result is defined there (`none`). -/
def parse_octal (text : List Char) : Option Int :=
  if text = [] then none
  else some (toInt32 (strtoll (stripSeparators text (prefixSkip text 'o' 'O')) 8))

/-- Embedding of `parse_hex`, with the same reading of `text[1]`. -/
def parse_hex (text : List Char) : Option Int :=
  if text = [] then none
  else some (toInt32 (strtoll (stripSeparators text (prefixSkip text 'x' 'X')) 16))

/-- The loop of `parse_binary` over the characters from `p` on. `result` is
the 32-bit pattern of the `int`: a shift that leaves the range of `int` wraps. -/
def binaryLoop : List Char → Nat → Nat
  | [], result => result
  | c :: cs, result =>
    if c ≠ '_' then
      if c = '1' then binaryLoop cs (((result <<< 1) ||| 1) % 4294967296)
      else if c = '0' then binaryLoop cs ((result <<< 1) % 4294967296)
      else binaryLoop cs result
    else binaryLoop cs result

/-- Embedding of `parse_binary`, with the same reading of `text[1]`. -/
def parse_binary (text : List Char) : Option Int :=
  if text = [] then none
  else some (toInt32 (binaryLoop (text.drop (prefixSkip text 'b' 'B')) 0))

/-! ## Vocabulary of the specification -/

/-- Digit alphabet of a radix: `0`-`9` for decimal, `0`-`7` for octal,
`0`-`9a`-`fA`-`F` for hexadecimal and `0`/`1` for binary. -/
def alphabet : Nat → List Char
  | 2 => "01".toList
  | 8 => "01234567".toList
  | 10 => "0123456789".toList
  | 16 => "0123456789abcdefABCDEF".toList
  | _ => []

/-- The supported radices. -/
def radices : List Nat := [10, 8, 16, 2]

/-- A digit string of radix `R`: every character is in the alphabet of `R`. -/
def IsDigits (R : Nat) (d : List Char) : Prop := ∀ c ∈ d, c ∈ alphabet R

instance (R : Nat) (d : List Char) : Decidable (IsDigits R d) := by
  unfold IsDigits; exact inferInstance

/-- Value of one digit: `0`-`9` count 0..9, `a`-`f` and `A`-`F` count 10..15. -/
def digitValue (c : Char) : Nat :=
  if c.isDigit then c.toNat - '0'.toNat
  else if c.isLower then c.toNat - 'a'.toNat + 10
  else c.toNat - 'A'.toNat + 10

/-- Positional value of a digit string, most significant digit first:
`v = v * R + digit`, started from `v`. -/
def positionalFrom (R : Nat) (v : Nat) (d : List Char) : Nat :=
  d.foldl (fun v c => v * R + digitValue c) v

/-- Positional value of a digit string, started from 0. -/
def positional (R : Nat) (d : List Char) : Nat := positionalFrom R 0 d

/-- Separators put before the digits that follow the first one: a digit whose
flag is set gets a single `_` in front of it. -/
def separatedTail : List Char → List Bool → List Char
  | [], _ => []
  | c :: cs, [] => c :: separatedTail cs []
  | c :: cs, b :: bs =>
    if b then '_' :: c :: separatedTail cs bs else c :: separatedTail cs bs

/-- A digit string with single `_` separators strictly between its digits: the
first digit stays first, the last one stays last, and no two `_` are adjacent. -/
def separated : List Char → List Bool → List Char
  | [], _ => []
  | c :: cs, flags => c :: separatedTail cs flags

/-- The text with every `_` taken out. -/
def withoutSeparators (text : List Char) : List Char :=
  text.filter (fun c => c ≠ '_')

/-- The decoder of each supported radix, applied to a literal text. -/
def decoder : Nat → List Char → Option Int
  | 10 => fun text => some (parse_decimal text)
  | 8 => parse_octal
  | 16 => parse_hex
  | 2 => parse_binary
  | _ => fun _ => none

/-- The lower-case prefix of the literals of a radix; decimal has none. -/
def radixPrefix : Nat → List Char
  | 8 => "0o".toList
  | 16 => "0x".toList
  | 2 => "0b".toList
  | _ => []

/-- Largest magnitude the specification admits for a target type of width `w`:
2^w - 1 when it is unsigned and 2^(w-1) - 1 when it is signed. -/
def targetMax (signed : Bool) (w : Nat) : Nat :=
  if signed then 2 ^ (w - 1) - 1 else 2 ^ w - 1

/-- Lower-case form of a hexadecimal letter: `A`-`F` become `a`-`f` and every
other character is kept. -/
def lowerHex (c : Char) : Char :=
  if 65 ≤ c.toNat ∧ c.toNat ≤ 70 then Char.ofNat (c.toNat + 32) else c

/-- Upper-case form of a hexadecimal letter: `a`-`f` become `A`-`F` and every
other character is kept. -/
def upperHex (c : Char) : Char :=
  if 97 ≤ c.toNat ∧ c.toNat ≤ 102 then Char.ofNat (c.toNat - 32) else c

/-! ## The type model (`src/compiler/types.h`, `src/compiler/types.c`)

A value of the C enumeration `BaseType` is an integer; the enumerators count
from 0 in the order of their declaration. -/

/-- Enumerator `TYPE_INT` of `BaseType`. -/
def TYPE_INT : Int := 0

/-- Enumerator `TYPE_I8` of `BaseType`. -/
def TYPE_I8 : Int := 1

/-- Enumerator `TYPE_I16` of `BaseType`. -/
def TYPE_I16 : Int := 2

/-- Enumerator `TYPE_I32` of `BaseType`. -/
def TYPE_I32 : Int := 3

/-- Enumerator `TYPE_I64` of `BaseType`. -/
def TYPE_I64 : Int := 4

/-- Enumerator `TYPE_I128` of `BaseType`. -/
def TYPE_I128 : Int := 5

/-- Enumerator `TYPE_U8` of `BaseType`. -/
def TYPE_U8 : Int := 6

/-- Enumerator `TYPE_U16` of `BaseType`. -/
def TYPE_U16 : Int := 7

/-- Enumerator `TYPE_U32` of `BaseType`. -/
def TYPE_U32 : Int := 8

/-- Enumerator `TYPE_U64` of `BaseType`. -/
def TYPE_U64 : Int := 9

/-- Enumerator `TYPE_U128` of `BaseType`. -/
def TYPE_U128 : Int := 10

/-- Enumerator `TYPE_BOOL` of `BaseType`. -/
def TYPE_BOOL : Int := 11

/-- Enumerator `TYPE_CHAR` of `BaseType`. -/
def TYPE_CHAR : Int := 12

/-- Enumerator `TYPE_STRING` of `BaseType`. -/
def TYPE_STRING : Int := 13

/-- Enumerator `TYPE_PATH` of `BaseType`. -/
def TYPE_PATH : Int := 14

/-- Enumerator `TYPE_FLOAT` of `BaseType`. -/
def TYPE_FLOAT : Int := 15

/-- Enumerator `TYPE_F32` of `BaseType`. -/
def TYPE_F32 : Int := 16

/-- Enumerator `TYPE_F64` of `BaseType`. -/
def TYPE_F64 : Int := 17

/-- The members of the enumeration `BaseType`, in the order of declaration. -/
def BaseType : List Int :=
  [TYPE_INT, TYPE_I8, TYPE_I16, TYPE_I32, TYPE_I64, TYPE_I128,
   TYPE_U8, TYPE_U16, TYPE_U32, TYPE_U64, TYPE_U128,
   TYPE_BOOL,
   TYPE_CHAR, TYPE_STRING,
   TYPE_PATH,
   TYPE_FLOAT, TYPE_F32, TYPE_F64]

/-- Embedding of `base_type_to_string`: the `switch` over the enumerators, with
its `default` label for every other value. -/
def base_type_to_string (type : Int) : List Char :=
  if type = TYPE_I8 then "i8".toList
  else if type = TYPE_I16 then "i16".toList
  else if type = TYPE_INT ∨ type = TYPE_I32 then "i32".toList
  else if type = TYPE_I64 then "i64".toList
  else if type = TYPE_I128 then "i128".toList
  else if type = TYPE_U8 then "u8".toList
  else if type = TYPE_U16 then "u16".toList
  else if type = TYPE_U32 then "u32".toList
  else if type = TYPE_U64 then "u64".toList
  else if type = TYPE_U128 then "u128".toList
  else if type = TYPE_BOOL then "bool".toList
  else if type = TYPE_CHAR then "char".toList
  else if type = TYPE_STRING then "string".toList
  else if type = TYPE_PATH then "path".toList
  else if type = TYPE_F32 ∨ type = TYPE_FLOAT then "f32".toList
  else if type = TYPE_F64 then "f64".toList
  else "UNKOWN_ERROR".toList

/-- The structure `IdList` of `types.h`: the array of strings that `IDs`
points to and the stored count `Size`. -/
structure IdList where
  /-- The strings of the array `IDs`, in the order of their indices. -/
  IDs : List (List Char)
  /-- The field `Size`, an `int`. -/
  Size : Int

/-- The structure `VarDecl` of `types.h`. -/
structure VarDecl where
  /-- The field `Type`, a `BaseType`. -/
  type : Int
  /-- The field `IdList`. -/
  IdList : IdList

/-- The loop `for (int i = 0; i < Size; i++) printf("  %s: %s\n", IDs[i], name)`
of `print_var_decl`, with `remaining` iterations to run from index `i`: the text
it prints. An index outside the array has no defined result (`none`). -/
def varDeclLoop (IDs : List (List Char)) (name : List Char) : Nat → Nat → Option (List Char)
  | 0, _ => some []
  | remaining + 1, i =>
    match IDs[i]? with
    | none => none
    | some id =>
      match varDeclLoop IDs name remaining (i + 1) with
      | none => none
      | some rest => some ("  ".toList ++ id ++ ": ".toList ++ name ++ "\n".toList ++ rest)

/-- Embedding of `print_var_decl`: the text written to the standard output.
The loop runs `Size` times when `Size` is positive and not at all otherwise. -/
def print_var_decl (decl : VarDecl) : Option (List Char) :=
  match varDeclLoop decl.IdList.IDs (base_type_to_string decl.type) decl.IdList.Size.toNat 0 with
  | none => none
  | some lines => some ("VAR_DECL(\n".toList ++ lines ++ ");\n".toList)

/-- The canonical names of the specification. -/
def canonicalNames : List (List Char) :=
  ["i8", "i16", "i32", "i64", "i128", "u8", "u16", "u32", "u64", "u128",
   "bool", "char", "string", "path", "f32", "f64"].map String.toList

/-- One line of the rendering of a `VarDecl`: an identifier and the name of the
type. -/
def varDeclLine (name : List Char) (id : List Char) : List Char :=
  "  ".toList ++ id ++ ": ".toList ++ name ++ "\n".toList

/-! ## The declaration model (`src/compiler/function_helper.h`) -/

/-- The structure `Identifier` of `function_helper.h`. -/
structure Identifier where
  /-- The field `id`, a string. -/
  id : List Char

/-- The structure `IdentifierList` of `function_helper.h`: the array that
`items` points to and the stored count `size`. -/
structure IdentifierList where
  /-- The elements of the array `items`, in the order of their indices. -/
  items : List Identifier
  /-- The field `size`, an `int`. -/
  size : Int

/-- Modelled from the spec: the empty list from which the external parser
starts the construction of an `IdentifierList`; the sources hold only the
declaration of the structure. -/
def IdentifierList.empty : IdentifierList := ⟨[], 0⟩

/-- Modelled from the spec: a valid append of the external parser to an
`IdentifierList`, which the sources do not hold: the identifier is put after
the elements present, in insertion order, and the stored count goes up by one. -/
def IdentifierList.append (l : IdentifierList) (x : Identifier) : IdentifierList :=
  ⟨l.items ++ [x], l.size + 1⟩

/-- Modelled from the spec: the empty `IdList` from which the external parser
starts; the sources hold only the declaration of the structure. -/
def IdList.empty : IdList := ⟨[], 0⟩

/-- Modelled from the spec: a valid append of the external parser to an
`IdList`, which the sources do not hold: the string is put after the elements
present and the stored count goes up by one. -/
def IdList.append (l : IdList) (x : List Char) : IdList :=
  ⟨l.IDs ++ [x], l.Size + 1⟩

/-! ## The separator-removal loop computes the filter -/

theorem stripLoop_take (fuel : Nat) :
    ∀ (buf : List Char) (p write : Nat), write ≤ p → buf.length - p ≤ fuel →
      (stripLoop fuel ⟨buf, p, write⟩).buf.take (stripLoop fuel ⟨buf, p, write⟩).write
        = buf.take write ++ withoutSeparators (buf.drop p) := by
  induction fuel with
  | zero =>
    intro buf p write _ hfuel
    have hdrop : buf.drop p = [] := List.drop_eq_nil_of_le (by omega)
    simp [stripLoop, hdrop, withoutSeparators]
  | succ fuel ih =>
    intro buf p write hwp hfuel
    cases hget : buf[p]? with
    | none =>
      have hlen : buf.length ≤ p := by
        by_contra hlt
        have := List.getElem?_eq_getElem (l := buf) (n := p) (by omega)
        rw [hget] at this
        exact Option.noConfusion this
      have hdrop : buf.drop p = [] := List.drop_eq_nil_of_le hlen
      simp [stripLoop, hget, hdrop, withoutSeparators]
    | some c =>
      obtain ⟨hp, hc⟩ := List.getElem?_eq_some.mp hget
      have hdrop : buf.drop p = c :: buf.drop (p + 1) := by
        rw [List.drop_eq_getElem_cons hp, hc]
      by_cases hsep : c = '_'
      · have hstep : stripLoop (fuel + 1) ⟨buf, p, write⟩
            = stripLoop fuel ⟨buf, p + 1, write⟩ := by
          simp [stripLoop, hget, hsep]
        rw [hstep, ih buf (p + 1) write (by omega) (by omega), hdrop]
        simp [withoutSeparators, hsep]
      · have hstep : stripLoop (fuel + 1) ⟨buf, p, write⟩
            = stripLoop fuel ⟨buf.set write c, p + 1, write + 1⟩ := by
          simp [stripLoop, hget, hsep]
        rw [hstep, ih (buf.set write c) (p + 1) (write + 1) (by omega)
          (by simp only [List.length_set]; omega), hdrop]
        have hw : write < buf.length := by omega
        have hwp1 : write < p + 1 := by omega
        have htake : (buf.set write c).take (write + 1) = buf.take write ++ [c] := by
          rw [List.take_succ, List.getElem?_set_self hw, List.set_take,
            List.set_eq_of_length_le (by simp)]
          rfl
        have hrest : (buf.set write c).drop (p + 1) = buf.drop (p + 1) :=
          List.drop_set_of_lt c buf hwp1
        rw [htake, hrest]
        simp [withoutSeparators, hsep]

theorem stripSeparators_eq (text : List Char) (skip : Nat) :
    stripSeparators text skip = withoutSeparators (text.drop skip) := by
  unfold stripSeparators
  by_cases h : skip ≤ text.length
  · simpa using stripLoop_take text.length text skip 0 (Nat.zero_le _) (by omega)
  · have hdrop : text.drop skip = [] := List.drop_eq_nil_of_le (by omega)
    have hget : text[skip]? = none := List.getElem?_eq_none (by omega)
    cases hl : text.length with
    | zero => simp [stripLoop, hdrop, withoutSeparators]
    | succ n => simp [stripLoop, hget, hdrop, withoutSeparators]

/-! ## `strtoll` on a run of digits -/

theorem alphabet_facts : ∀ R ∈ radices, ∀ c ∈ alphabet R,
    digitIn R c = some (digitValue c) ∧ isspace c = false ∧ c ≠ '-' ∧ c ≠ '+'
      ∧ c ≠ '_' ∧ c ≠ 'x' ∧ c ≠ 'X' := by
  decide

theorem accumulate_digits (R : Nat) (hR : R ∈ radices) (d rest : List Char)
    (hd : IsDigits R d) (acc : Nat) :
    accumulate R acc (d ++ rest) = accumulate R (positionalFrom R acc d) rest := by
  induction d generalizing acc with
  | nil => rfl
  | cons c cs ih =>
    have hc := (alphabet_facts R hR c (hd c (List.mem_cons_self c cs))).1
    have hcs : IsDigits R cs := fun x hx => hd x (List.mem_cons_of_mem c hx)
    show accumulate R acc (c :: (cs ++ rest)) = _
    simp only [accumulate, hc]
    exact ih hcs _

theorem accumulate_stop (R : Nat) (acc : Nat) (rest : List Char)
    (hstop : ∀ c ∈ rest.head?, digitIn R c = none) : accumulate R acc rest = acc := by
  cases rest with
  | nil => rfl
  | cons c cs =>
    have hc : digitIn R c = none := hstop c (by simp)
    simp [accumulate, hc]

theorem strtoll_run (R : Nat) (hR : R ∈ radices) (d rest : List Char)
    (hd : IsDigits R d) (hne : d ≠ [])
    (hstop : ∀ c ∈ rest.head?, digitIn R c = none)
    (hpre : takeHexPrefix R (d ++ rest) = d ++ rest) :
    strtoll (d ++ rest) R
      = if (positional R d : Int) > LLONG_MAX then LLONG_MAX else (positional R d : Int) := by
  cases d with
  | nil => exact absurd rfl hne
  | cons c cs =>
    obtain ⟨_, hsp, hminus, hplus, _, _, _⟩ :=
      alphabet_facts R hR c (hd c (List.mem_cons_self c cs))
    have hdrop : ((c :: cs) ++ rest).dropWhile isspace = (c :: cs) ++ rest := by
      simp [List.dropWhile, hsp]
    have hsign : takeSign ((c :: cs) ++ rest) = (false, (c :: cs) ++ rest) := by
      simp only [List.cons_append]
      unfold takeSign
      split
      · next h => exact absurd (List.cons.inj h).1 hminus
      · next h => exact absurd (List.cons.inj h).1 hplus
      · rfl
    unfold strtoll
    simp only [hdrop, hsign, hpre]
    rw [accumulate_digits R hR (c :: cs) rest hd 0, accumulate_stop R _ rest hstop]
    simp [positional]

theorem takeHexPrefix_digits (R : Nat) (hR : R ∈ radices) (d : List Char)
    (hd : IsDigits R d) : takeHexPrefix R d = d := by
  unfold takeHexPrefix
  split
  · next x h rest =>
    have hx := alphabet_facts R hR x (hd x (by simp))
    have h1 : x ≠ 'x' := hx.2.2.2.2.2.1
    have h2 : x ≠ 'X' := hx.2.2.2.2.2.2
    simp [h1, h2]
  · rfl

theorem withoutSeparators_digits (R : Nat) (hR : R ∈ radices) (d : List Char)
    (hd : IsDigits R d) : withoutSeparators d = d := by
  unfold withoutSeparators
  rw [List.filter_eq_self]
  intro c hc
  have h := (alphabet_facts R hR c (hd c hc)).2.2.2.2.1
  simpa using h

theorem strtoll_digits (R : Nat) (hR : R ∈ radices) (d : List Char)
    (hd : IsDigits R d) (hne : d ≠ []) :
    strtoll d R
      = if (positional R d : Int) > LLONG_MAX then LLONG_MAX else (positional R d : Int) := by
  have h := strtoll_run R hR d [] hd hne (by simp)
    (by rw [List.append_nil]; exact takeHexPrefix_digits R hR d hd)
  rwa [List.append_nil] at h

/-! ## The decoders on a prefixed literal -/

theorem prefixSkip_match (a b lower upper : Char) (s : List Char)
    (hb : b = lower ∨ b = upper) : prefixSkip (a :: b :: s) lower upper = 2 := by
  unfold prefixSkip
  rcases hb with rfl | rfl <;> simp

theorem parse_octal_skip (a b : Char) (s : List Char) (hb : b = 'o' ∨ b = 'O') :
    parse_octal (a :: b :: s) = some (toInt32 (strtoll (withoutSeparators s) 8)) := by
  simp [parse_octal, stripSeparators_eq, prefixSkip_match a b 'o' 'O' s hb]

theorem parse_hex_skip (a b : Char) (s : List Char) (hb : b = 'x' ∨ b = 'X') :
    parse_hex (a :: b :: s) = some (toInt32 (strtoll (withoutSeparators s) 16)) := by
  simp [parse_hex, stripSeparators_eq, prefixSkip_match a b 'x' 'X' s hb]

theorem parse_binary_skip (a b : Char) (s : List Char) (hb : b = 'b' ∨ b = 'B') :
    parse_binary (a :: b :: s) = some (toInt32 (binaryLoop s 0)) := by
  simp [parse_binary, prefixSkip_match a b 'b' 'B' s hb]

theorem decoder_strtoll (R : Nat) (hR : R ∈ radices) (h2 : R ≠ 2) (body : List Char) :
    decoder R (radixPrefix R ++ body)
      = some (toInt32 (strtoll (withoutSeparators body) R)) := by
  simp only [radices, List.mem_cons, List.mem_singleton, List.not_mem_nil, or_false] at hR
  rcases hR with rfl | rfl | rfl | rfl
  · simp [decoder, radixPrefix, parse_decimal, stripSeparators_eq]
  · exact parse_octal_skip '0' 'o' body (Or.inl rfl)
  · exact parse_hex_skip '0' 'x' body (Or.inl rfl)
  · exact absurd rfl h2

theorem shl_or_one (r : Nat) : (r <<< 1) ||| 1 = 2 * r + 1 := by
  rw [Nat.shiftLeft_eq, pow_one, Nat.mul_comm]
  have h := Nat.lor_bit false r true 0
  simpa [Nat.bit_val] using h

theorem binaryLoop_withoutSeparators (s : List Char) (r : Nat) :
    binaryLoop s r = binaryLoop (withoutSeparators s) r := by
  induction s generalizing r with
  | nil => rfl
  | cons c cs ih =>
    by_cases hc : c = '_'
    · subst hc
      simp only [binaryLoop, withoutSeparators, List.filter, ne_eq, not_true_eq_false,
        decide_False, ite_false]
      exact ih r
    · have hf : withoutSeparators (c :: cs) = c :: withoutSeparators cs := by
        simp [withoutSeparators, hc]
      rw [hf]
      simp only [binaryLoop, ne_eq, hc, not_false_eq_true, ite_true]
      split
      · exact ih _
      · split
        · exact ih _
        · exact ih _

theorem positionalFrom_mod (R : Nat) (d : List Char) (v : Nat) :
    positionalFrom R (v % 4294967296) d % 4294967296 = positionalFrom R v d % 4294967296 := by
  induction d generalizing v with
  | nil => simp [positionalFrom]
  | cons c cs ih =>
    show positionalFrom R (v % 4294967296 * R + digitValue c) cs % 4294967296
      = positionalFrom R (v * R + digitValue c) cs % 4294967296
    rw [← ih (v % 4294967296 * R + digitValue c), ← ih (v * R + digitValue c)]
    congr 2
    rw [Nat.add_mod, Nat.mul_mod, Nat.mod_mod, ← Nat.mul_mod, ← Nat.add_mod]

theorem binaryLoop_digits (d : List Char) (hd : IsDigits 2 d) (r : Nat)
    (hr : r < 4294967296) :
    binaryLoop d r = positionalFrom 2 r d % 4294967296 := by
  induction d generalizing r with
  | nil => simp [binaryLoop, positionalFrom, Nat.mod_eq_of_lt hr]
  | cons c cs ih =>
    have hcs : IsDigits 2 cs := fun x hx => hd x (List.mem_cons_of_mem c hx)
    have hc : c = '0' ∨ c = '1' := by
      have := hd c (List.mem_cons_self c cs)
      simpa [alphabet] using this
    rcases hc with rfl | rfl
    · have hstep : binaryLoop ('0' :: cs) r = binaryLoop cs ((r <<< 1) % 4294967296) := by
        simp [binaryLoop]
      rw [hstep, ih hcs _ (Nat.mod_lt _ (by decide)), positionalFrom_mod]
      have hv : r <<< 1 = r * 2 + digitValue '0' := by
        rw [Nat.shiftLeft_eq]; simp [digitValue]
      rw [hv]
      rfl
    · have hstep : binaryLoop ('1' :: cs) r
          = binaryLoop cs (((r <<< 1) ||| 1) % 4294967296) := by
        simp [binaryLoop]
      rw [hstep, ih hcs _ (Nat.mod_lt _ (by decide)), positionalFrom_mod]
      have hv : (r <<< 1) ||| 1 = r * 2 + digitValue '1' := by
        rw [shl_or_one]; simp [digitValue]; omega
      rw [hv]
      rfl

theorem decoder_binary (body : List Char) :
    decoder 2 (radixPrefix 2 ++ body)
      = some (toInt32 (binaryLoop (withoutSeparators body) 0)) := by
  rw [← binaryLoop_withoutSeparators]
  exact parse_binary_skip '0' 'b' body (Or.inl rfl)

theorem toInt32_small (v : Nat) (hv : v < 2147483648) : toInt32 (v : Int) = (v : Int) := by
  unfold toInt32
  omega

theorem toInt32_range (x : Int) : -2147483648 ≤ toInt32 x ∧ toInt32 x < 2147483648 := by
  unfold toInt32
  omega

theorem decoder_digits_strtoll (R : Nat) (hR : R ∈ radices) (h2 : R ≠ 2) (d body : List Char)
    (hd : IsDigits R d) (hne : d ≠ []) (hb : withoutSeparators body = d) :
    decoder R (radixPrefix R ++ body)
      = some (toInt32 (if (positional R d : Int) > LLONG_MAX then LLONG_MAX
          else (positional R d : Int))) := by
  rw [decoder_strtoll R hR h2, hb, strtoll_digits R hR d hd hne]

theorem decoder_digits_binary (d body : List Char) (hd : IsDigits 2 d)
    (hb : withoutSeparators body = d) :
    decoder 2 (radixPrefix 2 ++ body)
      = some (toInt32 ((positional 2 d % 4294967296 : Nat) : Int)) := by
  rw [decoder_binary, hb, binaryLoop_digits d hd 0 (by decide)]
  rfl

theorem decoder_digits_small (R : Nat) (hR : R ∈ radices) (d body : List Char)
    (hd : IsDigits R d) (hne : d ≠ []) (hb : withoutSeparators body = d)
    (hv : positional R d < 2147483648) :
    decoder R (radixPrefix R ++ body) = some (positional R d : Int) := by
  by_cases h2 : R = 2
  · subst h2
    rw [decoder_digits_binary d body hd hb, Nat.mod_eq_of_lt (by omega),
      toInt32_small _ hv]
  · rw [decoder_digits_strtoll R hR h2 d body hd hne hb]
    have hle : ¬ ((positional R d : Int) > LLONG_MAX) := by
      unfold LLONG_MAX; omega
    rw [if_neg hle, toInt32_small _ hv]

theorem withoutSeparators_separatedTail (d : List Char) (flags : List Bool) :
    withoutSeparators (separatedTail d flags) = withoutSeparators d := by
  induction d generalizing flags with
  | nil => cases flags <;> rfl
  | cons c cs ih =>
    cases flags with
    | nil =>
      show withoutSeparators (c :: separatedTail cs []) = withoutSeparators (c :: cs)
      simp only [withoutSeparators, List.filter_cons] at ih ⊢
      rw [ih []]
    | cons b bs =>
      cases b with
      | false =>
        show withoutSeparators (c :: separatedTail cs bs) = withoutSeparators (c :: cs)
        simp only [withoutSeparators, List.filter_cons] at ih ⊢
        rw [ih bs]
      | true =>
        show withoutSeparators ('_' :: c :: separatedTail cs bs) = withoutSeparators (c :: cs)
        simp only [withoutSeparators, List.filter_cons] at ih ⊢
        rw [ih bs]
        simp

theorem withoutSeparators_separated (d : List Char) (flags : List Bool) :
    withoutSeparators (separated d flags) = withoutSeparators d := by
  cases d with
  | nil => rfl
  | cons c cs =>
    show withoutSeparators (c :: separatedTail cs flags) = withoutSeparators (c :: cs)
    have h := withoutSeparators_separatedTail cs flags
    simp only [withoutSeparators, List.filter_cons] at h ⊢
    rw [h]

theorem withoutSeparators_idem (s : List Char) :
    withoutSeparators (withoutSeparators s) = withoutSeparators s := by
  simp [withoutSeparators, List.filter_filter]

theorem decoder_body (R : Nat) (body body' : List Char)
    (h : withoutSeparators body = withoutSeparators body') :
    decoder R (radixPrefix R ++ body) = decoder R (radixPrefix R ++ body') := by
  by_cases hR : R ∈ radices
  · by_cases h2 : R = 2
    · subst h2
      rw [decoder_binary, decoder_binary, h]
    · rw [decoder_strtoll R hR h2, decoder_strtoll R hR h2, h]
  · have hn : ∀ t, decoder R t = none := by
      intro t
      unfold decoder
      split
      · exact absurd (by decide) hR
      · exact absurd (by decide) hR
      · exact absurd (by decide) hR
      · exact absurd (by decide) hR
      · rfl
    rw [hn, hn]

theorem digitIn_ascii : ∀ R ∈ radices, ∀ n ∈ List.range 128,
    Char.ofNat n ∉ alphabet R → digitIn R (Char.ofNat n) = none := by
  decide

theorem digitIn_none (R : Nat) (hR : R ∈ radices) (c : Char) (hc : c ∉ alphabet R) :
    digitIn R c = none := by
  by_cases hlt : c.toNat < 128
  · have h := digitIn_ascii R hR c.toNat (List.mem_range.mpr hlt)
    rw [Char.ofNat_toNat] at h
    exact h hc
  · have h1 : ¬ (48 ≤ c.toNat ∧ c.toNat ≤ 57) := by omega
    have h2 : ¬ (97 ≤ c.toNat ∧ c.toNat ≤ 122) := by omega
    have h3 : ¬ (65 ≤ c.toNat ∧ c.toNat ≤ 90) := by omega
    simp [digitIn, digitOf, h1, h2, h3]

theorem takeHexPrefix_run (R : Nat) (hR : R ∈ radices) (d : List Char) (hd : IsDigits R d)
    (hne : d ≠ []) (c : Char) (rest : List Char)
    (hx : ¬ (R = 16 ∧ d = ['0'] ∧ (c = 'x' ∨ c = 'X'))) :
    takeHexPrefix R (d ++ c :: rest) = d ++ c :: rest := by
  unfold takeHexPrefix
  split
  · next x h tl heq =>
    rw [if_neg]
    · exact heq.symm
    rintro ⟨h16, hxx, _⟩
    cases d with
    | nil => exact hne rfl
    | cons a d1 =>
      cases d1 with
      | nil =>
        simp only [List.cons_append, List.nil_append, List.cons.injEq] at heq
        obtain ⟨ha, hcx, _⟩ := heq
        subst ha hcx
        exact hx ⟨h16, rfl, hxx⟩
      | cons b d2 =>
        simp only [List.cons_append, List.cons.injEq] at heq
        obtain ⟨_, hbx, _⟩ := heq
        subst hbx
        have hb := alphabet_facts R hR b (hd b (by simp))
        rcases hxx with hxx | hxx
        · exact hb.2.2.2.2.2.1 hxx
        · exact hb.2.2.2.2.2.2 hxx
  · rfl

theorem withoutSeparators_run (R : Nat) (hR : R ∈ radices) (d : List Char) (hd : IsDigits R d)
    (c : Char) (hsep : c ≠ '_') (rest : List Char) :
    withoutSeparators (d ++ c :: rest) = d ++ c :: withoutSeparators rest := by
  have h := withoutSeparators_digits R hR d hd
  simp only [withoutSeparators, List.filter_append, List.filter_cons] at h ⊢
  rw [h]
  simp [hsep]

/-! ## The statements of the specification about the decoders -/

/-- C1. For every radix R in 10, 8, 16, 2 and every non-empty digit string d
of R whose positional value v is below 2^31, the decoder of R applied to the
prefix of R followed by d returns exactly v. -/
theorem decode_exact (R : Nat) (hR : R ∈ radices) (d : List Char) (hne : d ≠ [])
    (hd : IsDigits R d) (hv : positional R d < 2 ^ 31) :
    decoder R (radixPrefix R ++ d) = some (positional R d : Int) :=
  decoder_digits_small R hR d d hd hne (withoutSeparators_digits R hR d hd)
    (by simpa using hv)

/-- C1, at the literals `0o17`, `0xFF` and `0b1010`: they decode to 15, 255
and 10. -/
theorem decode_exact_witness :
    parse_octal "0o17".toList = some 15 ∧ parse_hex "0xFF".toList = some 255
      ∧ parse_binary "0b1010".toList = some 10 :=
  ⟨decode_exact 8 (by decide) "17".toList (by decide) (by decide) (by decide),
   decode_exact 16 (by decide) "FF".toList (by decide) (by decide) (by decide),
   decode_exact 2 (by decide) "1010".toList (by decide) (by decide) (by decide)⟩

/-- C2. For every digit string d of radix R, putting single `_` separators
strictly between its digits leaves the result of the decoder of R unchanged. -/
theorem separators_between_digits (R : Nat) (_hR : R ∈ radices) (d : List Char)
    (_hd : IsDigits R d) (flags : List Bool) :
    decoder R (radixPrefix R ++ separated d flags) = decoder R (radixPrefix R ++ d) :=
  decoder_body R _ _ (withoutSeparators_separated d flags)

/-- C2, at `1_000_000`: it decodes like `1000000`, to 1000000. -/
theorem separators_between_digits_witness :
    separated "1000000".toList [true, false, false, true, false, false] = "1_000_000".toList
      ∧ some (parse_decimal "1_000_000".toList) = some (parse_decimal "1000000".toList)
      ∧ parse_decimal "1000000".toList = 1000000 :=
  ⟨by decide, separators_between_digits 10 (by decide) "1000000".toList (by decide)
    [true, false, false, true, false, false], by decide⟩

/-- C3, refuted as stated: the decimal digit string `4294967296` has the value
2^32, which is below 2^128, and decodes to 0. -/
theorem decode_wraps_at_4294967296 :
    IsDigits 10 "4294967296".toList ∧ positional 10 "4294967296".toList = 2 ^ 32
      ∧ positional 10 "4294967296".toList ≤ 2 ^ 128 - 1
      ∧ parse_decimal "4294967296".toList = 0
      ∧ parse_decimal "4294967296".toList ≠ (positional 10 "4294967296".toList : Int) := by
  decide

/-- C3, amended. For every non-empty digit string d of a supported radix R,
of positional value v, the decoder of R returns exactly v if and only if v is
at most 2^31 - 1, the largest `int`. -/
theorem exact_iff_within_int (R : Nat) (hR : R ∈ radices) (d : List Char) (hne : d ≠ [])
    (hd : IsDigits R d) :
    decoder R (radixPrefix R ++ d) = some (positional R d : Int)
      ↔ positional R d ≤ 2 ^ 31 - 1 := by
  have hb := withoutSeparators_digits R hR d hd
  constructor
  · intro h
    by_contra hbig
    have hbig' : (2147483648 : Int) ≤ (positional R d : Int) := by
      have : 2147483648 ≤ positional R d := by
        have e : (2 : Nat) ^ 31 - 1 = 2147483647 := by norm_num
        omega
      exact_mod_cast this
    by_cases h2 : R = 2
    · subst h2
      rw [decoder_digits_binary d d hd hb] at h
      have hr := toInt32_range ((positional 2 d % 4294967296 : Nat) : Int)
      have := Option.some.inj h
      omega
    · rw [decoder_digits_strtoll R hR h2 d d hd hne hb] at h
      have hr := toInt32_range (if (positional R d : Int) > LLONG_MAX then LLONG_MAX
          else (positional R d : Int))
      have := Option.some.inj h
      omega
  · intro hv
    have e : (2 : Nat) ^ 31 - 1 = 2147483647 := by norm_num
    exact decoder_digits_small R hR d d hd hne hb (by omega)

/-- C3 amended, at the decimal digit strings `2147483647` and `2147483648`:
the first is decoded exactly and the second is not. -/
theorem exact_iff_within_int_witness :
    (some (parse_decimal "2147483647".toList) = some ((2147483647 : Nat) : Int)
        ↔ 2147483647 ≤ 2 ^ 31 - 1)
      ∧ (some (parse_decimal "2147483648".toList) = some ((2147483648 : Nat) : Int)
        ↔ 2147483648 ≤ 2 ^ 31 - 1) :=
  ⟨exact_iff_within_int 10 (by decide) "2147483647".toList (by decide) (by decide),
   exact_iff_within_int 10 (by decide) "2147483648".toList (by decide) (by decide)⟩

/-- C4, refuted as stated: the literals `_1`, `1_` and `1__0`, with a leading,
a trailing and a doubled separator, decode to the values 1, 1 and 10. -/
theorem misplaced_separators_decoded :
    parse_decimal "_1".toList = 1 ∧ parse_decimal "1_".toList = 1
      ∧ parse_decimal "1__0".toList = 10 := by
  decide

/-- C4, amended. A separator is removed wherever it stands: every text decodes
like the text with all its `_` taken out, for `parse_decimal` on the whole text
and for the other decoders on the text that follows the prefix. -/
theorem separators_removed_anywhere :
    (∀ text, parse_decimal text = parse_decimal (withoutSeparators text))
      ∧ (∀ body, parse_octal ("0o".toList ++ body)
          = parse_octal ("0o".toList ++ withoutSeparators body))
      ∧ (∀ body, parse_hex ("0x".toList ++ body)
          = parse_hex ("0x".toList ++ withoutSeparators body))
      ∧ (∀ body, parse_binary ("0b".toList ++ body)
          = parse_binary ("0b".toList ++ withoutSeparators body)) := by
  refine ⟨fun text => ?_, fun body => ?_, fun body => ?_, fun body => ?_⟩
  · have h := decoder_body 10 text (withoutSeparators text) (withoutSeparators_idem text).symm
    exact Option.some.inj h
  · exact decoder_body 8 body (withoutSeparators body) (withoutSeparators_idem body).symm
  · exact decoder_body 16 body (withoutSeparators body) (withoutSeparators_idem body).symm
  · exact decoder_body 2 body (withoutSeparators body) (withoutSeparators_idem body).symm

/-- C5, refuted as stated: the literals `12a`, `0o19` and `0b102` hold a
character outside the alphabet of their radix and decode to 12, 1 and 2. -/
theorem foreign_character_decoded :
    parse_decimal "12a".toList = 12 ∧ parse_octal "0o19".toList = some 1
      ∧ parse_binary "0b102".toList = some 2 := by
  decide

/-- C5, amended. In radix 10, 8 or 16, a literal whose digits d (non-empty) are
followed by a character c outside the alphabet of the radix, other than `_`,
decodes like the literal cut before c, whatever follows c; in radix 16 the
case of c being `x` or `X` after the single digit `0` is left aside. -/
theorem decode_stops_at_foreign_character (R : Nat) (hR : R ∈ radices) (h2 : R ≠ 2)
    (d : List Char) (hne : d ≠ []) (hd : IsDigits R d) (c : Char) (hc : c ∉ alphabet R)
    (hsep : c ≠ '_') (hx : ¬ (R = 16 ∧ d = ['0'] ∧ (c = 'x' ∨ c = 'X')))
    (rest : List Char) :
    decoder R (radixPrefix R ++ (d ++ c :: rest)) = decoder R (radixPrefix R ++ d) := by
  rw [decoder_strtoll R hR h2, decoder_strtoll R hR h2, withoutSeparators_run R hR d hd c hsep,
    withoutSeparators_digits R hR d hd, strtoll_digits R hR d hd hne]
  have hstop : ∀ y ∈ (c :: withoutSeparators rest).head?, digitIn R y = none := by
    intro y hy
    simp only [List.head?_cons, Option.mem_def, Option.some.injEq] at hy
    rw [← hy]
    exact digitIn_none R hR c hc
  rw [strtoll_run R hR d (c :: withoutSeparators rest) hd hne hstop
    (takeHexPrefix_run R hR d hd hne c _ hx)]

/-- C5 amended, at `12a` and `0o19`: they decode like `12` and `0o1`. -/
theorem decode_stops_at_foreign_character_witness :
    some (parse_decimal "12a".toList) = some (parse_decimal "12".toList)
      ∧ parse_octal "0o19".toList = parse_octal "0o1".toList :=
  ⟨decode_stops_at_foreign_character 10 (by decide) (by decide) "12".toList (by decide)
      (by decide) 'a' (by decide) (by decide) (by decide) [],
   decode_stops_at_foreign_character 8 (by decide) (by decide) "1".toList (by decide)
      (by decide) '9' (by decide) (by decide) (by decide) []⟩

/-- C6, refuted as stated: the decimal digit string of 2^128 decodes to the
value -1. -/
theorem decode_of_two_pow_128 :
    IsDigits 10 "340282366920938463463374607431768211456".toList
      ∧ positional 10 "340282366920938463463374607431768211456".toList = 2 ^ 128
      ∧ parse_decimal "340282366920938463463374607431768211456".toList = -1 := by
  decide

/-- C6, amended. For every digit string of a supported radix whose value is
2^128 or more, a value is returned: -1 in radix 10, 8 and 16 (`strtoll` gives
`LLONG_MAX`, whose conversion to `int` is -1), and in radix 2 the `int` whose
32-bit pattern is the value modulo 2^32. -/
theorem decode_beyond_128_bits (R : Nat) (hR : R ∈ radices) (d : List Char)
    (hd : IsDigits R d) (hv : 2 ^ 128 ≤ positional R d) :
    decoder R (radixPrefix R ++ d)
      = some (if R = 2 then toInt32 ((positional R d % 2 ^ 32 : Nat) : Int) else -1) := by
  have hb := withoutSeparators_digits R hR d hd
  have hne : d ≠ [] := by
    rintro rfl
    simp [positional, positionalFrom] at hv
  by_cases h2 : R = 2
  · subst h2
    rw [decoder_digits_binary d d hd hb, if_pos rfl]
    norm_num
  · rw [decoder_digits_strtoll R hR h2 d d hd hne hb, if_neg h2]
    have hbig : (positional R d : Int) > LLONG_MAX := by
      have h128 : (2 : Nat) ^ 128 = 340282366920938463463374607431768211456 := by norm_num
      unfold LLONG_MAX
      omega
    rw [if_pos hbig]
    rfl

/-- C6 amended, at the decimal digit string of 2^128, decoded to -1, and at the
binary digit string of 2^128 + 5, decoded to 5. -/
theorem decode_beyond_128_bits_witness :
    some (parse_decimal "340282366920938463463374607431768211456".toList) = some (-1)
      ∧ 2 ^ 128 ≤ positional 10 "340282366920938463463374607431768211456".toList
      ∧ parse_binary
          "0b100000000000000000000000000000000000000000000000000000000000000000000000000000000000000000000000000000000000000000000000000000101".toList
        = some 5 :=
  ⟨decode_beyond_128_bits 10 (by decide) "340282366920938463463374607431768211456".toList
    (by decide) (by decide), by decide,
   decode_beyond_128_bits 2 (by decide)
    "100000000000000000000000000000000000000000000000000000000000000000000000000000000000000000000000000000000000000000000000000000101".toList
    (by decide) (by decide)⟩

/-- C7, refuted as stated: `0xFF` decodes to 255 and `0x100`, whose magnitude
256 is above 2^8 - 1, the largest `u8`, decodes to the value 256. -/
theorem decode_above_u8 :
    parse_hex "0xFF".toList = some 255 ∧ targetMax false 8 = 255
      ∧ positional 16 "100".toList = 256 ∧ parse_hex "0x100".toList = some 256 := by
  decide

/-- C7, amended. The decoders take no target type and reject nothing: for
every target of width w, signed or unsigned, every magnitude above the largest
value of that target and at most 2^31 - 1 is returned as it is. -/
theorem decode_ignores_target (signed : Bool) (w : Nat) (R : Nat) (hR : R ∈ radices)
    (d : List Char) (hd : IsDigits R d) (habove : targetMax signed w < positional R d)
    (hv : positional R d ≤ 2 ^ 31 - 1) :
    decoder R (radixPrefix R ++ d) = some (positional R d : Int) := by
  have hne : d ≠ [] := by
    rintro rfl
    simp [positional, positionalFrom] at habove
  have e : (2 : Nat) ^ 31 - 1 = 2147483647 := by norm_num
  exact decoder_digits_small R hR d d hd hne (withoutSeparators_digits R hR d hd) (by omega)

/-- C7 amended, at `0x100` for the target `u8` and at `0x80` for the target
`i8`: the values 256 and 128 are returned. -/
theorem decode_ignores_target_witness :
    (targetMax false 8 < positional 16 "100".toList
        ∧ parse_hex "0x100".toList = some ((256 : Nat) : Int))
      ∧ (targetMax true 8 < positional 16 "80".toList
        ∧ parse_hex "0x80".toList = some ((128 : Nat) : Int)) :=
  ⟨⟨by decide, decode_ignores_target false 8 16 (by decide) "100".toList (by decide)
      (by decide) (by decide)⟩,
   ⟨by decide, decode_ignores_target true 8 16 (by decide) "80".toList (by decide)
      (by decide) (by decide)⟩⟩

/-- C8, refuted as stated: the texts `2147483648`, `0xFFFFFFFF` and `0b1`
followed by 31 zeros start with a digit and decode to negative values, and so
does `0x-5`, where a sign follows the prefix. -/
theorem decode_negative :
    parse_decimal "2147483648".toList = -2147483648
      ∧ parse_hex "0xFFFFFFFF".toList = some (-1)
      ∧ parse_binary "0b10000000000000000000000000000000".toList = some (-2147483648)
      ∧ parse_hex "0x-5".toList = some (-5) := by
  decide

/-- C8, amended. For every literal made of the prefix of its radix and a
non-empty digit string of that radix, with or without single separators
between the digits, whose value is at most 2^31 - 1, the decoder returns a
value and that value is not negative. -/
theorem decode_nonnegative (R : Nat) (hR : R ∈ radices) (d : List Char) (hne : d ≠ [])
    (hd : IsDigits R d) (flags : List Bool) (hv : positional R d ≤ 2 ^ 31 - 1) :
    ∃ r : Int, decoder R (radixPrefix R ++ separated d flags) = some r ∧ 0 ≤ r := by
  have e : (2 : Nat) ^ 31 - 1 = 2147483647 := by norm_num
  have hb : withoutSeparators (separated d flags) = d := by
    rw [withoutSeparators_separated, withoutSeparators_digits R hR d hd]
  exact ⟨(positional R d : Int),
    decoder_digits_small R hR d (separated d flags) hd hne hb (by omega),
    Int.ofNat_nonneg _⟩

/-- C8 amended, at `0x7FFF_FFFF`, the largest literal of the statement. -/
theorem decode_nonnegative_witness :
    positional 16 "7FFFFFFF".toList ≤ 2 ^ 31 - 1
      ∧ ∃ r : Int, parse_hex "0x7FFF_FFFF".toList = some r ∧ 0 ≤ r :=
  ⟨by decide, decode_nonnegative 16 (by decide) "7FFFFFFF".toList (by decide) (by decide)
    [false, false, false, true] (by decide)⟩

/-- C9, at the failing input `1xFF`: its first character is not `0`, yet
`parse_hex` drops the first two characters and returns 255, the value of
`0xFF`, where decoding the text from its first character gives 1; likewise
`parse_octal` on `1o17` and `parse_binary` on `1b101`. -/
theorem prefix_dropped_without_zero :
    parse_hex "1xFF".toList = some 255 ∧ parse_hex "0xFF".toList = some 255
      ∧ toInt32 (strtoll (stripSeparators "1xFF".toList 0) 16) = 1
      ∧ parse_octal "1o17".toList = some 15
      ∧ toInt32 (strtoll (stripSeparators "1o17".toList 0) 8) = 1
      ∧ parse_binary "1b101".toList = some 5
      ∧ toInt32 (binaryLoop "1b101".toList 0) = 13 := by
  decide

/-- C10. The letter of the prefix is read in either case: for every string s,
`parse_octal` agrees on `0o` and `0O` followed by s, `parse_hex` on `0x` and
`0X`, and `parse_binary` on `0b` and `0B`. -/
theorem prefix_letter_case (s : List Char) :
    parse_octal ("0o".toList ++ s) = parse_octal ("0O".toList ++ s)
      ∧ parse_hex ("0x".toList ++ s) = parse_hex ("0X".toList ++ s)
      ∧ parse_binary ("0b".toList ++ s) = parse_binary ("0B".toList ++ s) := by
  refine ⟨?_, ?_, ?_⟩
  · exact (parse_octal_skip '0' 'o' s (Or.inl rfl)).trans
      (parse_octal_skip '0' 'O' s (Or.inr rfl)).symm
  · exact (parse_hex_skip '0' 'x' s (Or.inl rfl)).trans
      (parse_hex_skip '0' 'X' s (Or.inr rfl)).symm
  · exact (parse_binary_skip '0' 'b' s (Or.inl rfl)).trans
      (parse_binary_skip '0' 'B' s (Or.inr rfl)).symm

/-! ## The type model and the rendering of declarations -/

theorem varDeclLoop_from (name : List Char) (l : List (List Char)) :
    ∀ pre : List (List Char),
      varDeclLoop (pre ++ l) name l.length pre.length
        = some (l.map (varDeclLine name)).flatten := by
  induction l with
  | nil => intro pre; rfl
  | cons id rest ih =>
    intro pre
    have hget : (pre ++ id :: rest)[pre.length]? = some id := by
      rw [List.getElem?_append_right (Nat.le_refl _)]
      simp
    have hnext := ih (pre ++ [id])
    rw [List.append_assoc, List.length_append] at hnext
    simp only [List.singleton_append, List.length_singleton] at hnext
    simp only [List.length_cons, varDeclLoop, hget, hnext, List.map_cons, List.flatten_cons,
      varDeclLine, List.append_assoc]

/-- C11. The generic aliases carry the names of their 32-bit counterparts:
`TYPE_INT` and `TYPE_I32` are both named `i32`, `TYPE_FLOAT` and `TYPE_F32`
are both named `f32`. -/
theorem alias_names :
    base_type_to_string TYPE_INT = base_type_to_string TYPE_I32
      ∧ base_type_to_string TYPE_I32 = "i32".toList
      ∧ base_type_to_string TYPE_FLOAT = base_type_to_string TYPE_F32
      ∧ base_type_to_string TYPE_F32 = "f32".toList := by
  decide

/-- C12. Every member of `BaseType` is given a canonical name, each kind its
own, and never the label `UNKOWN_ERROR`; that label is returned exactly for
the values outside the enumeration. -/
theorem type_names_exhaustive :
    (∀ t ∈ BaseType, base_type_to_string t ∈ canonicalNames
        ∧ base_type_to_string t ≠ "UNKOWN_ERROR".toList)
      ∧ BaseType.map base_type_to_string
          = ["i32", "i8", "i16", "i32", "i64", "i128", "u8", "u16", "u32", "u64", "u128",
             "bool", "char", "string", "path", "f32", "f32", "f64"].map String.toList
      ∧ (∀ t : Int, base_type_to_string t = "UNKOWN_ERROR".toList ↔ t ∉ BaseType) := by
  refine ⟨by decide, by decide, ?_⟩
  intro t
  by_cases h : 0 ≤ t ∧ t ≤ 17
  · obtain ⟨h0, h17⟩ := h
    interval_cases t <;> decide
  · have hmem : t ∉ BaseType := fun hm =>
      h ((by decide : ∀ x ∈ BaseType, (0 : Int) ≤ x ∧ x ≤ 17) t hm)
    have e : ∀ x ∈ BaseType, ¬ t = x := fun x hx hxt => hmem (hxt ▸ hx)
    have e2 : ∀ x ∈ BaseType, ∀ y ∈ BaseType, ¬ (t = x ∨ t = y) :=
      fun x hx y hy hxy => hxy.elim (e x hx) (e y hy)
    have hname : base_type_to_string t = "UNKOWN_ERROR".toList := by
      unfold base_type_to_string
      rw [if_neg (e TYPE_I8 (by decide)), if_neg (e TYPE_I16 (by decide)),
        if_neg (e2 TYPE_INT (by decide) TYPE_I32 (by decide)),
        if_neg (e TYPE_I64 (by decide)), if_neg (e TYPE_I128 (by decide)),
        if_neg (e TYPE_U8 (by decide)), if_neg (e TYPE_U16 (by decide)),
        if_neg (e TYPE_U32 (by decide)), if_neg (e TYPE_U64 (by decide)),
        if_neg (e TYPE_U128 (by decide)), if_neg (e TYPE_BOOL (by decide)),
        if_neg (e TYPE_CHAR (by decide)), if_neg (e TYPE_STRING (by decide)),
        if_neg (e TYPE_PATH (by decide)),
        if_neg (e2 TYPE_F32 (by decide) TYPE_FLOAT (by decide)),
        if_neg (e TYPE_F64 (by decide))]
    exact ⟨fun _ => hmem, fun _ => hname⟩

/-- C13. For every `VarDecl` whose list holds the identifiers `ids`, with the
stored count equal to their number, and every type t, `print_var_decl` emits
`VAR_DECL(`, then one line per identifier, in the order of the list, made of
the identifier and the name of t, then `);`; with no identifier no line comes
between the two. -/
theorem var_decl_rendering (ids : List (List Char)) (t : Int) :
    print_var_decl ⟨t, ⟨ids, ids.length⟩⟩
        = some ("VAR_DECL(\n".toList
            ++ (ids.map (fun id => "  ".toList ++ id ++ ": ".toList
                  ++ base_type_to_string t ++ "\n".toList)).flatten
            ++ ");\n".toList)
      ∧ print_var_decl ⟨t, ⟨[], 0⟩⟩ = some "VAR_DECL(\n);\n".toList := by
  constructor
  · have h := varDeclLoop_from (base_type_to_string t) ids []
    simp only [List.nil_append, List.length_nil] at h
    simp only [print_var_decl, Int.toNat_ofNat, h]
    rfl
  · rfl

/-- C18. Two members of `BaseType` have the same name exactly when they are
equal or are the two members of an alias pair, `TYPE_INT` with `TYPE_I32` or
`TYPE_FLOAT` with `TYPE_F32`; the 18 members carry 16 distinct names. -/
theorem type_names_injective_up_to_aliases :
    (∀ a ∈ BaseType, ∀ b ∈ BaseType,
        base_type_to_string a = base_type_to_string b
          ↔ a = b ∨ ({a, b} : Finset Int) = {TYPE_INT, TYPE_I32}
              ∨ ({a, b} : Finset Int) = {TYPE_FLOAT, TYPE_F32})
      ∧ BaseType.Nodup ∧ BaseType.length = 18
      ∧ (BaseType.map base_type_to_string).dedup.length = 16 := by
  decide

/-! ## Construction of identifier lists -/

theorem identifierList_foldl (xs : List Identifier) :
    ∀ l : IdentifierList,
      (xs.foldl IdentifierList.append l).size = l.size + xs.length
        ∧ (xs.foldl IdentifierList.append l).items = l.items ++ xs := by
  induction xs with
  | nil => intro l; simp
  | cons x rest ih =>
    intro l
    obtain ⟨h1, h2⟩ := ih (l.append x)
    have s1 : (l.append x).size = l.size + 1 := rfl
    have s2 : (l.append x).items = l.items ++ [x] := rfl
    rw [List.foldl_cons, h1, h2, s1, s2]
    constructor
    · rw [List.length_cons]
      push_cast
      omega
    · simp

theorem idList_foldl (xs : List (List Char)) :
    ∀ l : IdList,
      (xs.foldl IdList.append l).Size = l.Size + xs.length
        ∧ (xs.foldl IdList.append l).IDs = l.IDs ++ xs := by
  induction xs with
  | nil => intro l; simp
  | cons x rest ih =>
    intro l
    obtain ⟨h1, h2⟩ := ih (l.append x)
    have s1 : (l.append x).Size = l.Size + 1 := rfl
    have s2 : (l.append x).IDs = l.IDs ++ [x] := rfl
    rw [List.foldl_cons, h1, h2, s1, s2]
    constructor
    · rw [List.length_cons]
      push_cast
      omega
    · simp

/-- C15. An `IdentifierList` built from the empty list by appending the N
identifiers of `xs` one after the other has the stored count N and holds
exactly these N elements, in insertion order; the same holds for an `IdList`
and its field `Size`. -/
theorem count_after_appends (xs : List Identifier) (ys : List (List Char)) :
    (xs.foldl IdentifierList.append IdentifierList.empty).size = xs.length
      ∧ (xs.foldl IdentifierList.append IdentifierList.empty).items.length = xs.length
      ∧ (xs.foldl IdentifierList.append IdentifierList.empty).items = xs
      ∧ (ys.foldl IdList.append IdList.empty).Size = ys.length
      ∧ (ys.foldl IdList.append IdList.empty).IDs.length = ys.length
      ∧ (ys.foldl IdList.append IdList.empty).IDs = ys := by
  obtain ⟨h1, h2⟩ := identifierList_foldl xs IdentifierList.empty
  obtain ⟨h3, h4⟩ := idList_foldl ys IdList.empty
  have e1 : IdentifierList.empty.items = [] := rfl
  have e2 : IdentifierList.empty.size = 0 := rfl
  have e3 : IdList.empty.IDs = [] := rfl
  have e4 : IdList.empty.Size = 0 := rfl
  rw [e1, List.nil_append] at h2
  rw [e3, List.nil_append] at h4
  rw [e2, Int.zero_add] at h1
  rw [e4, Int.zero_add] at h3
  exact ⟨h1, by rw [h2], h2, h3, by rw [h4], h4⟩

/-! ## Normalization -/

/-- C14. The removal of separators is idempotent: applied to its own result it
changes nothing, its result holds no `_`, and a string without `_` is returned
unchanged. -/
theorem normalization_idempotent (s : List Char) :
    stripSeparators (stripSeparators s 0) 0 = stripSeparators s 0
      ∧ '_' ∉ stripSeparators s 0
      ∧ ('_' ∉ s → stripSeparators s 0 = s) := by
  simp only [stripSeparators_eq, List.drop_zero]
  refine ⟨withoutSeparators_idem s, ?_, ?_⟩
  · simp [withoutSeparators]
  · intro h
    unfold withoutSeparators
    rw [List.filter_eq_self]
    intro c hc
    have : c ≠ '_' := fun e => h (e ▸ hc)
    simpa using this

/-- C14, at `1_000_000` and at the separator-free `1000000`. -/
theorem normalization_idempotent_witness :
    stripSeparators (stripSeparators "1_000_000".toList 0) 0
        = stripSeparators "1_000_000".toList 0
      ∧ stripSeparators "1000000".toList 0 = "1000000".toList :=
  ⟨(normalization_idempotent "1_000_000".toList).1,
   (normalization_idempotent "1000000".toList).2.2 (by decide)⟩

/-! ## `parse_decimal` beyond the range of `int` -/

/-- C16. For every non-empty decimal digit string d of value v and every text
that is d with `_` separators added, `parse_decimal` returns, when v is at
most 2^63 - 1, the number of -2^31 .. 2^31 - 1 that differs from v by a
multiple of 2^32, and returns -1 when v is 2^63 or more. -/
theorem parse_decimal_beyond_int (d text : List Char) (hne : d ≠ [])
    (hd : IsDigits 10 d) (ht : withoutSeparators text = d) :
    (positional 10 d ≤ 2 ^ 63 - 1 →
        -2 ^ 31 ≤ parse_decimal text ∧ parse_decimal text ≤ 2 ^ 31 - 1
          ∧ (2 ^ 32 : Int) ∣ parse_decimal text - (positional 10 d : Int))
      ∧ (2 ^ 63 ≤ positional 10 d → parse_decimal text = -1) := by
  have hp : parse_decimal text
      = toInt32 (if (positional 10 d : Int) > LLONG_MAX then LLONG_MAX
          else (positional 10 d : Int)) := by
    unfold parse_decimal
    rw [stripSeparators_eq, List.drop_zero, ht, strtoll_digits 10 (by decide) d hd hne]
  have e63 : (2 : Nat) ^ 63 = 9223372036854775808 := by norm_num
  have e31 : (2 : Int) ^ 31 = 2147483648 := by norm_num
  have e32 : (2 : Int) ^ 32 = 4294967296 := by norm_num
  rw [hp, e63, e31, e32]
  unfold toInt32 LLONG_MAX
  constructor
  · intro hv
    rw [if_neg (by omega)]
    omega
  · intro hv
    rw [if_pos (by omega)]
    rfl

/-- C16, at `4_294_967_301`, of value 2^32 + 5 and decoded to 5, and at
`9223372036854775808`, of value 2^63 and decoded to -1. -/
theorem parse_decimal_beyond_int_witness :
    withoutSeparators "4_294_967_301".toList = "4294967301".toList
      ∧ positional 10 "4294967301".toList = 2 ^ 32 + 5
      ∧ parse_decimal "4_294_967_301".toList = 5
      ∧ (2 ^ 32 : Int) ∣ parse_decimal "4_294_967_301".toList
          - (positional 10 "4294967301".toList : Int)
      ∧ parse_decimal "9223372036854775808".toList = -1 :=
  ⟨by decide, by decide, by decide,
   ((parse_decimal_beyond_int "4294967301".toList "4_294_967_301".toList (by decide)
      (by decide) (by decide)).1 (by decide)).2.2,
   (parse_decimal_beyond_int "9223372036854775808".toList "9223372036854775808".toList
      (by decide) (by decide) (by decide)).2 (by decide)⟩

/-! ## The separator-removal loop, step by step -/

theorem stripLoop_bounds (fuel : Nat) :
    ∀ st : Cursor, st.write ≤ st.p → st.p ≤ st.buf.length →
      (stripLoop fuel st).write ≤ (stripLoop fuel st).p
        ∧ (stripLoop fuel st).p ≤ (stripLoop fuel st).buf.length
        ∧ (stripLoop fuel st).buf.length = st.buf.length := by
  induction fuel with
  | zero => intro st hw hp; exact ⟨hw, hp, rfl⟩
  | succ fuel ih =>
    intro st hw hp
    cases hget : st.buf[st.p]? with
    | none =>
      have hstep : stripLoop (fuel + 1) st = st := by simp [stripLoop, hget]
      rw [hstep]
      exact ⟨hw, hp, rfl⟩
    | some c =>
      obtain ⟨hlt, _⟩ := List.getElem?_eq_some.mp hget
      by_cases hsep : c = '_'
      · have hstep : stripLoop (fuel + 1) st = stripLoop fuel ⟨st.buf, st.p + 1, st.write⟩ := by
          simp [stripLoop, hget, hsep]
        rw [hstep]
        exact ih ⟨st.buf, st.p + 1, st.write⟩ (Nat.le_succ_of_le hw) hlt
      · have hstep : stripLoop (fuel + 1) st
            = stripLoop fuel ⟨st.buf.set st.write c, st.p + 1, st.write + 1⟩ := by
          simp [stripLoop, hget, hsep]
        rw [hstep]
        have h := ih ⟨st.buf.set st.write c, st.p + 1, st.write + 1⟩
          (Nat.succ_le_succ hw) (by simp only [List.length_set]; exact hlt)
        simp only [List.length_set] at h
        exact h

theorem stripLoop_end (fuel : Nat) :
    ∀ st : Cursor, st.p ≤ st.buf.length → st.buf.length - st.p ≤ fuel →
      (stripLoop fuel st).p = st.buf.length := by
  induction fuel with
  | zero => intro st hp hfuel; show st.p = st.buf.length; omega
  | succ fuel ih =>
    intro st hp hfuel
    cases hget : st.buf[st.p]? with
    | none =>
      have hstep : stripLoop (fuel + 1) st = st := by simp [stripLoop, hget]
      have hlen : st.buf.length ≤ st.p := by
        by_contra hlt
        have := List.getElem?_eq_getElem (l := st.buf) (n := st.p) (by omega)
        rw [hget] at this
        exact Option.noConfusion this
      rw [hstep]
      omega
    | some c =>
      obtain ⟨hlt, _⟩ := List.getElem?_eq_some.mp hget
      by_cases hsep : c = '_'
      · have hstep : stripLoop (fuel + 1) st = stripLoop fuel ⟨st.buf, st.p + 1, st.write⟩ := by
          simp [stripLoop, hget, hsep]
        rw [hstep]
        exact ih ⟨st.buf, st.p + 1, st.write⟩ hlt (by show st.buf.length - (st.p + 1) ≤ fuel; omega)
      · have hstep : stripLoop (fuel + 1) st
            = stripLoop fuel ⟨st.buf.set st.write c, st.p + 1, st.write + 1⟩ := by
          simp [stripLoop, hget, hsep]
        rw [hstep]
        have h := ih ⟨st.buf.set st.write c, st.p + 1, st.write + 1⟩
          (by simp only [List.length_set]; exact hlt)
          (by simp only [List.length_set]; omega)
        simp only [List.length_set] at h
        exact h

theorem withoutSeparators_length (l : List Char) :
    (withoutSeparators l).length + l.count '_' = l.length := by
  induction l with
  | nil => rfl
  | cons c cs ih =>
    by_cases hc : c = '_'
    · subst hc
      have hf : withoutSeparators ('_' :: cs) = withoutSeparators cs := by
        simp [withoutSeparators]
      rw [hf, List.count_cons_self, List.length_cons]
      omega
    · have hf : withoutSeparators (c :: cs) = c :: withoutSeparators cs := by
        simp [withoutSeparators, hc]
      have hcount : List.count '_' (c :: cs) = List.count '_' cs :=
        List.count_cons_of_ne (Ne.symm hc) cs
      rw [hf, hcount, List.length_cons, List.length_cons]
      omega

theorem prefixSkip_le (text : List Char) (lower upper : Char) :
    prefixSkip text lower upper ≤ text.length := by
  unfold prefixSkip
  split
  · next h =>
    rcases h with h | h
    · obtain ⟨hlt, _⟩ := List.getElem?_eq_some.mp h
      omega
    · obtain ⟨hlt, _⟩ := List.getElem?_eq_some.mp h
      omega
  · exact Nat.zero_le _

theorem count_after_skip (text : List Char) (lower upper : Char) (hl : lower ≠ '_')
    (hu : upper ≠ '_') (hhead : text.head? ≠ some '_') :
    (text.drop (prefixSkip text lower upper)).count '_' = text.count '_' := by
  unfold prefixSkip
  split
  · next h =>
    match text, hhead, h with
    | [], _, h => simp at h
    | [_], _, h => simp at h
    | a :: b :: rest, hhead, h =>
      have ha : '_' ≠ a := fun e => hhead (by rw [← e]; rfl)
      have hb : '_' ≠ b := by
        intro e
        subst e
        rcases h with h | h
        · exact hl (by simpa using h.symm)
        · exact hu (by simpa using h.symm)
      show List.count '_' rest = List.count '_' (a :: b :: rest)
      rw [List.count_cons_of_ne ha, List.count_cons_of_ne hb]
  · rfl

/-- C17. In `parse_decimal` (no skipped prefix), `parse_octal` and `parse_hex`,
after any number of iterations of the removal loop the write offset is at most
the read offset, which is at most the length of the buffer, whose length never
changes; the loop ends with the read offset on the terminator; the cleaned
string is the characters other than `_` of the text after the skipped prefix,
in their order, and its length is the length of the text minus the skipped
prefix minus the number of `_` after that prefix, which is the number of `_` of
the whole text when the text does not start with `_`. -/
theorem compaction_safe_exact (text : List Char) (skip : Nat)
    (hskip : skip = 0 ∨ skip = prefixSkip text 'o' 'O' ∨ skip = prefixSkip text 'x' 'X') :
    (∀ k : Nat, (stripLoop k ⟨text, skip, 0⟩).write ≤ (stripLoop k ⟨text, skip, 0⟩).p
        ∧ (stripLoop k ⟨text, skip, 0⟩).p ≤ text.length
        ∧ (stripLoop k ⟨text, skip, 0⟩).buf.length = text.length)
      ∧ (stripLoop text.length ⟨text, skip, 0⟩).p = text.length
      ∧ (stripLoop text.length ⟨text, skip, 0⟩).buf[(stripLoop text.length ⟨text, skip, 0⟩).p]?
          = none
      ∧ stripSeparators text skip = (text.drop skip).filter (fun c => c ≠ '_')
      ∧ (stripSeparators text skip).length
          = text.length - skip - (text.drop skip).count '_'
      ∧ (stripSeparators text skip).length + skip + (text.drop skip).count '_'
          = text.length
      ∧ (text.head? ≠ some '_' →
          (stripSeparators text skip).length = text.length - skip - text.count '_') := by
  have hle : skip ≤ text.length := by
    rcases hskip with h | h | h
    · omega
    · rw [h]; exact prefixSkip_le text 'o' 'O'
    · rw [h]; exact prefixSkip_le text 'x' 'X'
  have hb : ∀ k : Nat, (stripLoop k ⟨text, skip, 0⟩).write ≤ (stripLoop k ⟨text, skip, 0⟩).p
      ∧ (stripLoop k ⟨text, skip, 0⟩).p ≤ (stripLoop k ⟨text, skip, 0⟩).buf.length
      ∧ (stripLoop k ⟨text, skip, 0⟩).buf.length = text.length :=
    fun k => stripLoop_bounds k ⟨text, skip, 0⟩ (Nat.zero_le _) hle
  have hend : (stripLoop text.length ⟨text, skip, 0⟩).p = text.length :=
    stripLoop_end text.length ⟨text, skip, 0⟩ hle (Nat.sub_le _ _)
  have hlen := withoutSeparators_length (text.drop skip)
  rw [List.length_drop] at hlen
  refine ⟨fun k => ⟨(hb k).1, ?_, (hb k).2.2⟩, hend, ?_, ?_, ?_, ?_, ?_⟩
  · have h := (hb k).2.1
    rw [(hb k).2.2] at h
    exact h
  · apply List.getElem?_eq_none
    rw [hend, (hb text.length).2.2]
  · rw [stripSeparators_eq]
    rfl
  · rw [stripSeparators_eq]
    omega
  · rw [stripSeparators_eq]
    omega
  · intro hhead
    have hcount : (text.drop skip).count '_' = text.count '_' := by
      rcases hskip with h | h | h
      · rw [h, List.drop_zero]
      · rw [h]; exact count_after_skip text 'o' 'O' (by decide) (by decide) hhead
      · rw [h]; exact count_after_skip text 'x' 'X' (by decide) (by decide) hhead
    rw [stripSeparators_eq, ← hcount]
    omega

/-- C17, at `0x1_F` in `parse_hex`: two characters are skipped, one `_` is
removed and the cleaned string is `1F`. -/
theorem compaction_safe_exact_witness :
    (stripLoop 5 ⟨"0x1_F".toList, 2, 0⟩).p = 5
      ∧ stripSeparators "0x1_F".toList 2 = "1F".toList
      ∧ (stripSeparators "0x1_F".toList 2).length
          = "0x1_F".toList.length - 2 - ("0x1_F".toList.drop 2).count '_' :=
  ⟨(compaction_safe_exact "0x1_F".toList 2 (by decide)).2.1,
   (compaction_safe_exact "0x1_F".toList 2 (by decide)).2.2.2.1,
   (compaction_safe_exact "0x1_F".toList 2 (by decide)).2.2.2.2.1⟩

/-! ## Case of the hexadecimal letters -/

theorem hex_case_facts : ∀ c ∈ alphabet 16,
    lowerHex c ∈ alphabet 16 ∧ upperHex c ∈ alphabet 16
      ∧ digitValue (lowerHex c) = digitValue c ∧ digitValue (upperHex c) = digitValue c := by
  decide

theorem map_separatedTail (f : Char → Char) (hf : f '_' = '_') (d : List Char) :
    ∀ flags : List Bool, (separatedTail d flags).map f = separatedTail (d.map f) flags := by
  induction d with
  | nil => intro flags; cases flags <;> rfl
  | cons c cs ih =>
    intro flags
    cases flags with
    | nil =>
      show f c :: (separatedTail cs []).map f = f c :: separatedTail (cs.map f) []
      rw [ih []]
    | cons b bs =>
      cases b with
      | false =>
        show f c :: (separatedTail cs bs).map f = f c :: separatedTail (cs.map f) bs
        rw [ih bs]
      | true =>
        show f '_' :: f c :: (separatedTail cs bs).map f
          = '_' :: f c :: separatedTail (cs.map f) bs
        rw [ih bs, hf]

theorem map_separated (f : Char → Char) (hf : f '_' = '_') (d : List Char)
    (flags : List Bool) : (separated d flags).map f = separated (d.map f) flags := by
  cases d with
  | nil => rfl
  | cons c cs =>
    show f c :: (separatedTail cs flags).map f = f c :: separatedTail (cs.map f) flags
    rw [map_separatedTail f hf cs flags]

theorem positionalFrom_map (R : Nat) (f : Char → Char) (d : List Char)
    (hf : ∀ c ∈ d, digitValue (f c) = digitValue c) :
    ∀ v : Nat, positionalFrom R v (d.map f) = positionalFrom R v d := by
  induction d with
  | nil => intro v; rfl
  | cons c cs ih =>
    intro v
    show positionalFrom R (v * R + digitValue (f c)) (cs.map f)
      = positionalFrom R (v * R + digitValue c) cs
    rw [hf c (List.mem_cons_self c cs),
      ih (fun x hx => hf x (List.mem_cons_of_mem c hx))]

theorem parse_hex_mapped (f : Char → Char) (hsep : f '_' = '_')
    (hf : ∀ c ∈ alphabet 16, f c ∈ alphabet 16 ∧ digitValue (f c) = digitValue c)
    (d : List Char) (hd : IsDigits 16 d) (flags : List Bool) :
    parse_hex ("0x".toList ++ separated d flags)
      = parse_hex ("0x".toList ++ (separated d flags).map f) := by
  cases hnil : d with
  | nil => rfl
  | cons c cs =>
    rw [← hnil]
    have hne : d ≠ [] := by rw [hnil]; exact List.cons_ne_nil c cs
    have hd2 : IsDigits 16 (d.map f) := by
      intro x hx
      obtain ⟨y, hy, rfl⟩ := List.mem_map.mp hx
      exact (hf y (hd y hy)).1
    have hne2 : d.map f ≠ [] := by
      intro h
      exact hne (List.map_eq_nil_iff.mp h)
    have hpos : positional 16 (d.map f) = positional 16 d :=
      positionalFrom_map 16 f d (fun x hx => (hf x (hd x hx)).2) 0
    have h1 := decoder_digits_strtoll 16 (by decide) (by decide) d (separated d flags) hd hne
      (by rw [withoutSeparators_separated, withoutSeparators_digits 16 (by decide) d hd])
    have h2 := decoder_digits_strtoll 16 (by decide) (by decide) (d.map f)
      (separated (d.map f) flags) hd2 hne2
      (by rw [withoutSeparators_separated,
            withoutSeparators_digits 16 (by decide) (d.map f) hd2])
    rw [hpos, ← h1] at h2
    rw [map_separated f hsep d flags]
    exact h2.symm

/-- C19. For every string of hexadecimal digits, with or without single `_`
separators between the digits, `parse_hex` returns the same result for `0x`
followed by the string, by its lower-case form and by its upper-case form. -/
theorem hex_letter_case (d : List Char) (hd : IsDigits 16 d) (flags : List Bool) :
    parse_hex ("0x".toList ++ separated d flags)
        = parse_hex ("0x".toList ++ (separated d flags).map lowerHex)
      ∧ parse_hex ("0x".toList ++ separated d flags)
        = parse_hex ("0x".toList ++ (separated d flags).map upperHex) :=
  ⟨parse_hex_mapped lowerHex (by decide)
      (fun c hc => ⟨(hex_case_facts c hc).1, (hex_case_facts c hc).2.2.1⟩) d hd flags,
   parse_hex_mapped upperHex (by decide)
      (fun c hc => ⟨(hex_case_facts c hc).2.1, (hex_case_facts c hc).2.2.2⟩) d hd flags⟩

/-- C19, at `0xff` and `0xFF`: both decode to 255. -/
theorem hex_letter_case_witness :
    parse_hex "0xff".toList = parse_hex "0xFF".toList
      ∧ parse_hex "0xFF".toList = parse_hex "0xff".toList
      ∧ parse_hex "0xff".toList = some 255 :=
  ⟨(hex_letter_case "ff".toList (by decide) []).2,
   (hex_letter_case "FF".toList (by decide) []).1, by decide⟩

end Mint
